import Mathlib

/-!
Verification of the `clip` command-line description and parsing library.

The definitions below are a shallow embedding of the Rust sources:
  * `clip_core/src/describe/value.rs`   → `Value`
  * `clip_core/src/describe/formatter.rs` → `Formatter`, `start_with`,
    `start_other_lines_with`
  * `clip_core/src/describe/arg.rs`     → `ArgType`, `Arg`, the summary and
    details renderers
  * `clip_core/src/describe/command.rs` → `Command`
  * `clip_core/src/parser.rs` together with the code generated by
    `clip_derive/src/try_parse.rs` → `TypeSpec`, `tryParse`, `parse`

Rust `Vec` becomes `List`, `&str`/`String` become `String`, `Option<&str>`
becomes `Option String`, and the `Result`-returning parser becomes `Except`.
The newtype wrappers `ArgGroup(Vec<Arg>)` and `Choices(Vec<Arg>)` are
represented directly by the child list `List Arg`; their trait methods become
functions on `List Arg` carrying the wrapper's name (`ArgGroup.summarize`,
`Choices.details`, ...).
-/

namespace Clip

/-- Embeds `Value<'a> { name, description }` from `describe/value.rs`. -/
structure Value where
  name : String
  description : Option String
deriving DecidableEq, Repr

/-- Rust's `{:8}` format padding: left-align the string in a field of width
eight, padding with spaces (no effect when the string is longer). Width is
counted in characters, which coincides with bytes for the ASCII names used
throughout the crate. -/
def pad8 (s : String) : String :=
  s ++ String.mk (List.replicate (8 - s.length) ' ')

/-- The `Display` implementation for `Value` without the alternate flag:
just the name. -/
def Value.display (v : Value) : String := v.name

/-- The `Display` implementation for `Value` with the alternate flag (`{:#}`):
when a description is present, the name padded to eight columns followed by
the description, otherwise just the name (`value.rs` lines 25-33). -/
def Value.displayAlt (v : Value) : String :=
  match v.description with
  | some d => pad8 v.name ++ d
  | none => v.name

/-- Embeds `Formatter<'a>` from `describe/formatter.rs`. The Rust field `end`
is a Lean keyword and is rendered `end_`. -/
structure Formatter where
  very_start : Option String := none
  very_end : Option String := none
  start : Option String := none
  end_ : Option String := none
  middle : Option String := none
  new_line_chars : Option String := none

/-- Splits a character list at every `'\n'`; always returns at least one
(possibly empty) segment, like `String.splitOn "\n"`. -/
def splitNl : List Char → List (List Char)
  | [] => [[]]
  | c :: cs =>
    match splitNl cs with
    | [] => [[]]
    | line :: rest =>
      if c = '\n' then [] :: line :: rest else (c :: line) :: rest

/-- Embeds Rust's `str::lines()`: split on `'\n'`, a trailing newline does not
produce a final empty line (and the empty string has no lines). The sources
never put `'\r'` in rendered text, so carriage-return trimming is omitted. -/
def strLines (s : String) : List String :=
  let parts := (splitNl s.data).map String.mk
  if parts.getLast? = some "" then parts.dropLast else parts

/-- Embeds `start_with` (`formatter.rs` lines 30-36): prefix every line of the
string with `chars`, re-terminating each with `'\n'`. -/
def start_with (string : String) (chars : String) : String :=
  (strLines string).foldl (fun result line => result ++ (chars ++ line ++ "\n")) ""

/-- Embeds `start_other_lines_with` (`formatter.rs` lines 38-48): keep the
first line as is and prefix every later line with `chars`. -/
def start_other_lines_with (string : String) (chars : String) : String :=
  match strLines string with
  | [] => ""
  | first :: rest =>
    rest.foldl (fun result line => result ++ (chars ++ line ++ "\n")) (first ++ "\n")

/-- The accumulation step of `Formatter::fmt` applied to the list of rendered
items. Each step appends `middle` (only when the accumulator is non-empty),
`start`, the content (its continuation lines indented by `new_line_chars` when
configured), and `end`, exactly as the `fold` in `formatter.rs` lines 60-77. -/
def Formatter.fmtList (f : Formatter) (rendered : List String) : String :=
  f.very_start.getD "" ++
    rendered.foldl
      (fun string item =>
        string ++ (if string.isEmpty then "" else f.middle.getD "") ++
          f.start.getD "" ++
          (match f.new_line_chars with
           | some chars => start_other_lines_with item chars
           | none => item) ++
          f.end_.getD "")
      "" ++
    f.very_end.getD ""

/-- Embeds `Formatter::fmt` (`formatter.rs` lines 51-79): apply the renderer,
drop the items that render to `none` (`filter_map`), and fold the rest. -/
def Formatter.fmt {Item : Type} (f : Formatter) (args : List Item)
    (format_function : Item → Option String) : String :=
  f.fmtList (args.filterMap format_function)

mutual

/-- Embeds `ArgType` from `describe/arg.rs`: a leaf `Value`, a `Choices`
node, or a `Group` node (the `Choices`/`ArgGroup` wrappers are inlined as the
child list). -/
inductive ArgType : Type where
  | value : ArgType
  | choices (args : List Arg) : ArgType
  | group (args : List Arg) : ArgType

/-- Embeds `Arg { value, type, max_depth }` from `describe/arg.rs`. The
private cached field `max_depth` is stored as the third component. -/
inductive Arg : Type where
  | mk (value : Value) (type : ArgType) (max_depth : Nat) : Arg

end

/-- Projection for the `value` field of `Arg`. -/
def Arg.value : Arg → Value
  | .mk v _ _ => v

/-- Projection for the `type` field of `Arg`. -/
def Arg.type : Arg → ArgType
  | .mk _ t _ => t

/-- Projection for the cached `max_depth` field of `Arg`. -/
def Arg.max_depth : Arg → Nat
  | .mk _ _ d => d

/-- Embeds `ArgTree::max_depth` (`arg.rs` lines 41-47): map each contained
argument to its cached depth and reduce with `if a > b { a } else { b }`,
defaulting to `1` for an empty list (`unwrap_or(1)`). -/
def ArgTree.max_depth (args : List Arg) : Nat :=
  match args.map (fun a => a.max_depth) with
  | [] => 1
  | x :: xs => xs.foldl (fun a b => if a > b then a else b) x

/-- Embeds `Arg::with_type` (`arg.rs` lines 154-169): compute the cached
depth from the type — children's depth plus one for `Choices`, children's
depth for `Group`, one for a leaf. -/
def Arg.with_type (name : String) (description : Option String)
    (type : ArgType) : Arg :=
  let max_depth :=
    match type with
    | .choices choices => ArgTree.max_depth choices + 1
    | .group group => ArgTree.max_depth group
    | .value => 1
  .mk ⟨name, description⟩ type max_depth

/-- Embeds `Arg::new` (`arg.rs` lines 172-178): a leaf with depth one. -/
def Arg.new (name : String) (description : Option String) : Arg :=
  .mk ⟨name, description⟩ .value 1

/-- The summary `Formatter` for `ArgGroup` (`arg.rs` lines 83-92). -/
def ArgGroup.summaryFormatter : Formatter :=
  { middle := some " ", start := some "<", end_ := some ">" }

/-- The summary `Formatter` for `Choices` (`arg.rs` lines 106-115). -/
def Choices.summaryFormatter : Formatter :=
  { very_start := some "<", very_end := some ">", middle := some "|" }

/-- The details `Formatter` for `ArgGroup`: the default (all fields unset). -/
def ArgGroup.detailsFormatter : Formatter := {}

/-- The details `Formatter` for `Choices` (`arg.rs` lines 117-125). -/
def Choices.detailsFormatter : Formatter :=
  { start := some "- ", new_line_chars := some "  " }

mutual

/-- Embeds `Arg::summarize` (`arg.rs` lines 181-190): the match on
`self.r#type`, with the `self` fields passed through. -/
def Arg.summarize : Arg → String
  | .mk v t d => ArgType.summarizeIn v d t

/-- The body of the `match &self.r#type` in `Arg::summarize`: a leaf gives
its bare name, a `Choices` whose cached depth is at most two collapses to
the bare name, a deeper `Choices` and every `Group` delegate to the
container's `summarize` (inlined here so the recursion is structural; the
named wrappers `Choices.summarize` and `ArgGroup.summarize` follow). -/
def ArgType.summarizeIn (v : Value) (d : Nat) : ArgType → String
  | .value => v.name
  | .choices choices =>
    if d ≤ 2 then v.name
    else Choices.summaryFormatter.fmtList (summarizeEach choices)
  | .group group => ArgGroup.summaryFormatter.fmtList (summarizeEach group)

/-- Renders each child with `Arg.summarize`; the `filter_map` of the Rust
`fmt` never drops a child because the renderer is `Some(arg.summarize())`. -/
def summarizeEach : List Arg → List String
  | [] => []
  | a :: rest => Arg.summarize a :: summarizeEach rest

end

/-- Embeds `ArgSummarize::summarize` for `Choices`: the choices summary
formatter folded over each child's `summarize`. -/
def Choices.summarize (choices : List Arg) : String :=
  Choices.summaryFormatter.fmtList (summarizeEach choices)

/-- Embeds `ArgSummarize::summarize` for `ArgGroup`: the group summary
formatter folded over each child's `summarize`. -/
def ArgGroup.summarize (group : List Arg) : String :=
  ArgGroup.summaryFormatter.fmtList (summarizeEach group)

mutual

/-- Embeds `Arg::details` (`arg.rs` lines 192-201): the match on
`self.r#type`, with the `self` fields passed through. -/
def Arg.details : Arg → String
  | .mk v t d => ArgType.detailsIn v d t

/-- The body of the `match &self.r#type` in `Arg::details`: a leaf renders
`format!("{:#}\n", value)`; a `Choices` of depth at most two renders that
header line followed by the choices' details with every line indented two
spaces; a deeper `Choices` and every `Group` delegate to the container
(inlined here so the recursion is structural; the named wrappers
`Choices.details` and `ArgGroup.details` follow). -/
def ArgType.detailsIn (v : Value) (d : Nat) : ArgType → String
  | .value => v.displayAlt ++ "\n"
  | .choices choices =>
    if d ≤ 2 then
      v.displayAlt ++ "\n" ++
        start_with (Choices.detailsFormatter.fmtList (detailsEach choices)) "  "
    else Choices.detailsFormatter.fmtList (detailsEach choices)
  | .group group => ArgGroup.detailsFormatter.fmtList (detailsEach group)

/-- Renders each child with `Arg.details`; the renderer in the Rust `fmt`
call is `Some(arg.details())`, so no child is dropped. -/
def detailsEach : List Arg → List String
  | [] => []
  | a :: rest => Arg.details a :: detailsEach rest

end

/-- Embeds `ArgDetails::details` for `Choices`: the choices details formatter
(bullet `- `, continuation indent two spaces) folded over each child. -/
def Choices.details (choices : List Arg) : String :=
  Choices.detailsFormatter.fmtList (detailsEach choices)

/-- Embeds `ArgDetails::details` for `ArgGroup`: the default formatter folded
over each child. -/
def ArgGroup.details (group : List Arg) : String :=
  ArgGroup.detailsFormatter.fmtList (detailsEach group)

/-- Embeds `Command { value, subcommands, arguments }` from
`describe/command.rs`; the `ArgGroup` wrapper of the `arguments` field is
represented by its child list. -/
structure Command where
  value : Value
  subcommands : Option (List Command)
  arguments : List Arg

/-- Embeds `Command::new` (`command.rs` lines 33-42): no subcommands and an
empty argument group. -/
def Command.new (name : String) (description : Option String) : Command :=
  { value := ⟨name, description⟩, subcommands := none, arguments := [] }

/-- Embeds `Command::set_subcommands` (`command.rs` lines 43-45) as a
functional update. -/
def Command.set_subcommands (c : Command) (subcommands : List Command) : Command :=
  { c with subcommands := some subcommands }

/-- Embeds `Command::set_arguments` (`command.rs` lines 46-48): `extend` the
existing argument vector with the given arguments. -/
def Command.set_arguments (c : Command) (arguments : List Arg) : Command :=
  { c with arguments := c.arguments ++ arguments }

/-- Embeds `Command::summarize` (`command.rs` lines 50-59): the displayed
name, then `" " ++ arguments.summarize()` pushed only when the argument list
is non-empty, then `" [COMMAND] .."` pushed only when `subcommands` is
`Some`. -/
def Command.summarize (c : Command) : String :=
  let result := c.value.display
  let result :=
    if c.arguments.isEmpty then result
    else result ++ (" " ++ ArgGroup.summarize c.arguments)
  if c.subcommands.isSome then result ++ " [COMMAND] .." else result

/-- Embeds `ParsingError` from `parser.rs`. -/
inductive ParsingError : Type where
  | TooFewArguments : ParsingError
  | BadType : ParsingError
  | VariantNotFound : ParsingError
  | TooManyArguments : ParsingError
deriving DecidableEq, Repr

/-- Values produced by the parsers that `clip_derive/src/try_parse.rs`
generates: primitive tokens parse to numbers or strings, a struct
initialisation collects its fields in order, an enum initialisation records
the matched variant's name and its fields. -/
inductive PVal : Type where
  | nat (n : Nat) : PVal
  | str (s : String) : PVal
  | struct (fields : List PVal) : PVal
  | variant (name : String) (fields : List PVal) : PVal

/-- Accumulating decimal reader over a character list: fails on the first
non-digit character. -/
def readDigits : List Char → Nat → Option Nat
  | [], acc => some acc
  | c :: cs, acc =>
    if '0' ≤ c ∧ c ≤ '9' then readDigits cs (acc * 10 + (c.toNat - '0'.toNat))
    else none

/-- Models Rust's `str::parse::<u8>` on plain decimal tokens: the whole
string must be non-empty, all digits, and the value must fit in eight bits.
This is the `FromStr` conversion the derive macro emits for a `u8` field. -/
def u8FromStr (s : String) : Option PVal :=
  match s.data with
  | [] => none
  | c :: cs =>
    match readDigits (c :: cs) 0 with
    | some n => if n < 256 then some (.nat n) else none
    | none => none

/-- Models Rust's `str::parse::<String>`, which never fails: the `FromStr`
conversion the derive macro emits for a `String` field. -/
def stringFromStr (s : String) : Option PVal :=
  some (.str s)

/-- ASCII lowercasing of one character, the fragment of Rust's
`char::to_lowercase` exercised by identifier names. -/
def lowerChar (c : Char) : Char :=
  if 'A' ≤ c ∧ c ≤ 'Z' then Char.ofNat (c.toNat + 32) else c

/-- Models Rust's `str::to_lowercase` on the ASCII identifiers that variant
names and discriminant tokens are drawn from. -/
def lowerString (s : String) : String :=
  String.mk (s.data.map lowerChar)

mutual

/-- One field of a derived parser: without the `#[try_parse]` attribute the
generated code converts exactly one token with the field type's `FromStr`
(modelled by an arbitrary conversion function); with the attribute it
delegates to the field type's own `try_parse` (modelled by a nested
`TypeSpec`). -/
inductive FieldSpec : Type where
  | prim (conv : String → Option PVal) : FieldSpec
  | nested (spec : TypeSpec) : FieldSpec

/-- The shape a `#[derive(TryParse)]` works from: a struct with its ordered
fields, or an enum with its ordered variants, each variant carrying its own
ordered fields. -/
inductive TypeSpec : Type where
  | struct (fields : List FieldSpec) : TypeSpec
  | union (variants : List (String × List FieldSpec)) : TypeSpec

end

mutual

/-- Embeds the `try_parse` implementation generated by
`impl_try_parse_macro`: a struct parses its fields in declaration order; an
enum first consumes the discriminant token (`TooFewArguments` when the stream
is empty) and then tries its variants in order (`impl_enum_initialization`,
`try_parse.rs` lines 81-103). -/
def tryParse : TypeSpec → List String → Except ParsingError (PVal × List String)
  | .struct fields, values =>
    match parseFields fields values with
    | .ok (parsed, rest) => .ok (.struct parsed, rest)
    | .error e => .error e
  | .union variants, values =>
    match values with
    | [] => .error .TooFewArguments
    | keyword :: rest => parseVariants variants keyword rest

/-- Embeds `impl_fields` (`try_parse.rs` lines 29-54): each primitive field
runs `values.next().map_or(Err(TooFewArguments), |v| v.parse().or(Err(BadType)))?`;
each `#[try_parse]` field runs the nested `try_parse` on the current stream
and continues on its remainder. The `?` on every step makes the first error
abort the whole parse. -/
def parseFields : List FieldSpec → List String →
    Except ParsingError (List PVal × List String)
  | [], values => .ok ([], values)
  | .prim conv :: fields, values =>
    match values with
    | [] => .error .TooFewArguments
    | token :: rest =>
      match conv token with
      | none => .error .BadType
      | some v =>
        match parseFields fields rest with
        | .ok (parsed, rest2) => .ok (v :: parsed, rest2)
        | .error e => .error e
  | .nested spec :: fields, values =>
    match tryParse spec values with
    | .ok (v, rest) =>
      match parseFields fields rest with
      | .ok (parsed, rest2) => .ok (v :: parsed, rest2)
      | .error e => .error e
    | .error e => .error e

/-- Embeds the `match keyword.to_lowercase().as_str()` generated by
`impl_enum_initialization`: the arms are the variants' lowercased names in
declaration order, the fallthrough arm is `VariantNotFound`, and a matching
arm initialises that variant's fields from the remaining stream. -/
def parseVariants : List (String × List FieldSpec) → String → List String →
    Except ParsingError (PVal × List String)
  | [], _, _ => .error .VariantNotFound
  | (name, fields) :: variants, keyword, values =>
    if lowerString name = lowerString keyword then
      match parseFields fields values with
      | .ok (parsed, rest) => .ok (.variant name parsed, rest)
      | .error e => .error e
    else parseVariants variants keyword values

end

/-- Embeds the top-level `parse` (`parser.rs` lines 38-47): run `try_parse`;
when the remainder still yields a token replace a successful result by
`TooManyArguments`, otherwise feed the value to the continuation; propagate
a parse error verbatim. -/
def parse {R : Type} (spec : TypeSpec) (args : List String)
    (callback : PVal → R) : Except ParsingError R :=
  match tryParse spec args with
  | .ok (parsed, rest) =>
    match rest with
    | _ :: _ => .error .TooManyArguments
    | [] => .ok (callback parsed)
  | .error err => .error err

/-- The maximum of a list of naturals, following the spec's phrase
"the maximum of the children's max_depth" (zero on an empty list). -/
def maxOfDepths (args : List Arg) : Nat :=
  (args.map Arg.max_depth).foldr Nat.max 0

theorem ifGt_eq_max (a b : Nat) : (if a > b then a else b) = Nat.max a b := by
  rcases le_or_lt a b with h | h
  · rw [if_neg (by omega)]
    exact (Nat.max_eq_right h).symm
  · rw [if_pos h]
    exact (Nat.max_eq_left (by omega)).symm

theorem foldl_reduce_max (xs : List Nat) (x : Nat) :
    xs.foldl (fun a b => if a > b then a else b) x = Nat.max x (xs.foldr Nat.max 0) := by
  induction xs generalizing x with
  | nil => simp
  | cons y ys ih =>
    simp only [List.foldl_cons, List.foldr_cons]
    rw [ih, ifGt_eq_max]
    exact Nat.max_assoc x y _

theorem filterMap_filter_isSome {α : Type} (g : α → Option String) (l : List α) :
    (l.filter fun x => (g x).isSome).filterMap g = l.filterMap g := by
  induction l with
  | nil => rfl
  | cons a t ih =>
    cases h : g a with
    | none => simp [List.filter_cons, List.filterMap_cons, h, ih]
    | some s => simp [List.filter_cons, List.filterMap_cons, h, ih]

theorem summarizeEach_eq_filterMap (l : List Arg) :
    summarizeEach l = l.filterMap (fun a => some (Arg.summarize a)) := by
  induction l with
  | nil => rfl
  | cons a t ih => simp [summarizeEach, List.filterMap_cons, ih]

theorem detailsEach_eq_filterMap (l : List Arg) :
    detailsEach l = l.filterMap (fun a => some (Arg.details a)) := by
  induction l with
  | nil => rfl
  | cons a t ih => simp [detailsEach, List.filterMap_cons, ih]

mutual

/-- A successful `tryParse` returns as remainder an exact suffix of its
input token sequence. -/
theorem tryParse_rest_suffix (spec : TypeSpec) (toks : List String)
    (v : PVal) (rest : List String) (h : tryParse spec toks = .ok (v, rest)) :
    ∃ consumed, toks = consumed ++ rest := by
  cases spec with
  | struct fields =>
    simp only [tryParse] at h
    cases hf : parseFields fields toks with
    | ok p =>
      obtain ⟨vs, rest2⟩ := p
      rw [hf] at h
      simp only [Except.ok.injEq, Prod.mk.injEq] at h
      exact h.2 ▸ parseFields_rest_suffix fields toks vs rest2 hf
    | error e =>
      rw [hf] at h
      simp at h
  | union variants =>
    cases toks with
    | nil => simp [tryParse] at h
    | cons kw ts =>
      simp only [tryParse] at h
      obtain ⟨pre, hp⟩ := parseVariants_rest_suffix variants kw ts v rest h
      exact ⟨kw :: pre, by simp [hp]⟩

/-- A successful `parseFields` returns as remainder an exact suffix of its
input token sequence. -/
theorem parseFields_rest_suffix (fields : List FieldSpec) (toks : List String)
    (vs : List PVal) (rest : List String)
    (h : parseFields fields toks = .ok (vs, rest)) :
    ∃ consumed, toks = consumed ++ rest := by
  cases fields with
  | nil =>
    simp only [parseFields, Except.ok.injEq, Prod.mk.injEq] at h
    exact ⟨[], by simp [h.2]⟩
  | cons f fs =>
    cases f with
    | prim conv =>
      cases toks with
      | nil => simp [parseFields] at h
      | cons t ts =>
        simp only [parseFields] at h
        cases hc : conv t with
        | none =>
          rw [hc] at h
          simp at h
        | some pv =>
          rw [hc] at h
          cases hf : parseFields fs ts with
          | ok p =>
            obtain ⟨vs2, rest2⟩ := p
            rw [hf] at h
            simp only [Except.ok.injEq, Prod.mk.injEq] at h
            obtain ⟨pre, hp⟩ := parseFields_rest_suffix fs ts vs2 rest2 hf
            exact ⟨t :: pre, by simp [hp, h.2]⟩
          | error e =>
            rw [hf] at h
            simp at h
    | nested spec =>
      cases ht : tryParse spec toks with
      | ok p =>
        obtain ⟨pv, rest1⟩ := p
        cases hf : parseFields fs rest1 with
        | ok q =>
          obtain ⟨vs2, rest2⟩ := q
          simp only [parseFields, ht, hf, Except.ok.injEq, Prod.mk.injEq] at h
          obtain ⟨pre1, hp1⟩ := tryParse_rest_suffix spec toks pv rest1 ht
          obtain ⟨pre2, hp2⟩ := parseFields_rest_suffix fs rest1 vs2 rest2 hf
          exact ⟨pre1 ++ pre2, by simp [hp1, hp2, h.2, List.append_assoc]⟩
        | error e =>
          simp [parseFields, ht, hf] at h
      | error e =>
        simp [parseFields, ht] at h

/-- A successful `parseVariants` returns as remainder an exact suffix of
the token sequence that follows the discriminant. -/
theorem parseVariants_rest_suffix (variants : List (String × List FieldSpec))
    (kw : String) (toks : List String) (v : PVal) (rest : List String)
    (h : parseVariants variants kw toks = .ok (v, rest)) :
    ∃ consumed, toks = consumed ++ rest := by
  cases variants with
  | nil => simp [parseVariants] at h
  | cons pair variants2 =>
    obtain ⟨name, fields⟩ := pair
    simp only [parseVariants] at h
    by_cases hl : lowerString name = lowerString kw
    · rw [if_pos hl] at h
      cases hf : parseFields fields toks with
      | ok p =>
        obtain ⟨vs, rest2⟩ := p
        rw [hf] at h
        simp only [Except.ok.injEq, Prod.mk.injEq] at h
        exact h.2 ▸ parseFields_rest_suffix fields toks vs rest2 hf
      | error e =>
        rw [hf] at h
        simp at h
    · rw [if_neg hl] at h
      exact parseVariants_rest_suffix variants2 kw toks v rest h

end

mutual

/-- `tryParse` never produces the `TooManyArguments` error: that error is
reserved to the top-level `parse` entry point. -/
theorem tryParse_no_tooMany (spec : TypeSpec) (toks : List String)
    (e : ParsingError) (h : tryParse spec toks = .error e) :
    e ≠ .TooManyArguments := by
  cases spec with
  | struct fields =>
    simp only [tryParse] at h
    cases hf : parseFields fields toks with
    | ok p =>
      obtain ⟨vs, rest2⟩ := p
      rw [hf] at h
      simp at h
    | error e2 =>
      rw [hf] at h
      simp only [Except.error.injEq] at h
      exact h ▸ parseFields_no_tooMany fields toks e2 hf
  | union variants =>
    cases toks with
    | nil =>
      simp only [tryParse, Except.error.injEq] at h
      simp [← h]
    | cons kw ts =>
      simp only [tryParse] at h
      exact parseVariants_no_tooMany variants kw ts e h

/-- `parseFields` never produces the `TooManyArguments` error. -/
theorem parseFields_no_tooMany (fields : List FieldSpec) (toks : List String)
    (e : ParsingError) (h : parseFields fields toks = .error e) :
    e ≠ .TooManyArguments := by
  cases fields with
  | nil => simp [parseFields] at h
  | cons f fs =>
    cases f with
    | prim conv =>
      cases toks with
      | nil =>
        simp only [parseFields, Except.error.injEq] at h
        simp [← h]
      | cons t ts =>
        simp only [parseFields] at h
        cases hc : conv t with
        | none =>
          rw [hc] at h
          simp only [Except.error.injEq] at h
          simp [← h]
        | some pv =>
          rw [hc] at h
          cases hf : parseFields fs ts with
          | ok p =>
            obtain ⟨vs2, rest2⟩ := p
            rw [hf] at h
            simp at h
          | error e2 =>
            rw [hf] at h
            simp only [Except.error.injEq] at h
            exact h ▸ parseFields_no_tooMany fs ts e2 hf
    | nested spec =>
      cases ht : tryParse spec toks with
      | ok p =>
        obtain ⟨pv, rest1⟩ := p
        cases hf : parseFields fs rest1 with
        | ok q =>
          obtain ⟨vs2, rest2⟩ := q
          simp [parseFields, ht, hf] at h
        | error e2 =>
          simp only [parseFields, ht, hf, Except.error.injEq] at h
          exact h ▸ parseFields_no_tooMany fs rest1 e2 hf
      | error e2 =>
        simp only [parseFields, ht, Except.error.injEq] at h
        exact h ▸ tryParse_no_tooMany spec toks e2 ht

/-- `parseVariants` never produces the `TooManyArguments` error. -/
theorem parseVariants_no_tooMany (variants : List (String × List FieldSpec))
    (kw : String) (toks : List String) (e : ParsingError)
    (h : parseVariants variants kw toks = .error e) :
    e ≠ .TooManyArguments := by
  cases variants with
  | nil =>
    simp only [parseVariants, Except.error.injEq] at h
    simp [← h]
  | cons pair variants2 =>
    obtain ⟨name, fields⟩ := pair
    simp only [parseVariants] at h
    by_cases hl : lowerString name = lowerString kw
    · rw [if_pos hl] at h
      cases hf : parseFields fields toks with
      | ok p =>
        obtain ⟨vs, rest2⟩ := p
        rw [hf] at h
        simp at h
      | error e2 =>
        rw [hf] at h
        simp only [Except.error.injEq] at h
        exact h ▸ parseFields_no_tooMany fields toks e2 hf
    · rw [if_neg hl] at h
      exact parseVariants_no_tooMany variants2 kw toks e h

end

/-- The derived parser for the `Leaf { a: u8, b: String }` test struct of
`src/tests/try_parse.rs`. -/
def LeafSpec : TypeSpec := .struct [.prim u8FromStr, .prim stringFromStr]

/-- The `FromStr` implementation the derive macro generates for the unit
enum `Unit { One, Two, Three }`: lowercase the token and match it against
the lowercased variant names. -/
def unitFromStr (s : String) : Option PVal :=
  if lowerString s = "one" then some (.variant "One" [])
  else if lowerString s = "two" then some (.variant "Two" [])
  else if lowerString s = "three" then some (.variant "Three" [])
  else none

/-- The derived parser for the `Command` test enum of
`src/tests/try_parse.rs`: `Tuple(u8, #[try_parse] Leaf)`,
`Struct { unit: Unit, other: u8 }`, `Unit`. -/
def CommandSpec : TypeSpec :=
  .union [("Tuple", [.prim u8FromStr, .nested LeafSpec]),
          ("Struct", [.prim unitFromStr, .prim u8FromStr]),
          ("Unit", [])]

/-- The derived parser for the `Parent` test struct of
`src/tests/try_parse.rs`: two `#[try_parse]` fields in order. -/
def ParentSpec : TypeSpec := .struct [.nested LeafSpec, .nested CommandSpec]

/-- The union `{One, Two, Three}` of the claimed scenario. -/
def NumberSpec : TypeSpec := .union [("One", []), ("Two", []), ("Three", [])]

/-- The claimed scenario's shape: the `{One, Two, Three}` union followed by
an integer field. -/
def NumberThenIntSpec : TypeSpec := .struct [.nested NumberSpec, .prim u8FromStr]

/-- C1 fails as stated: an `Arg` built by `with_type` on a `Choices` with an
empty child sequence has `max_depth = 2`, not `1` — `ArgTree::max_depth`
falls back to `1` on an empty vector and `with_type` still adds one for the
`Choices` layer. -/
theorem empty_choices_max_depth_is_two :
    (Arg.with_type "empty" none (ArgType.choices [])).max_depth = 2 ∧
    (Arg.with_type "empty" none (ArgType.choices [])).max_depth ≠ 1 := by
  exact ⟨rfl, by decide⟩

/-- C1 amended: for every `Arg` built with `Arg::with_type`, the cached
`max_depth` is `1` for the `Value` leaf; `1` plus the maximum of the
children's `max_depth` for a non-empty `Choices`; the maximum of the
children's `max_depth` for a `Group` with at least one child; `1` for a
`Group` with an empty child sequence; and `2` (one plus the empty-vector
default of one) for a `Choices` with an empty child sequence. -/
theorem with_type_max_depth (name : String) (description : Option String) :
    (Arg.with_type name description .value).max_depth = 1 ∧
    (∀ a cs, (Arg.with_type name description (.choices (a :: cs))).max_depth =
      maxOfDepths (a :: cs) + 1) ∧
    (∀ a gs, (Arg.with_type name description (.group (a :: gs))).max_depth =
      maxOfDepths (a :: gs)) ∧
    (Arg.with_type name description (.group [])).max_depth = 1 ∧
    (Arg.with_type name description (.choices [])).max_depth = 2 := by
  refine ⟨rfl, ?_, ?_, rfl, rfl⟩
  · intro a cs
    simp only [Arg.with_type, Arg.max_depth, ArgTree.max_depth, maxOfDepths,
      List.map_cons, List.foldr_cons]
    rw [foldl_reduce_max]
    rfl
  · intro a gs
    simp only [Arg.with_type, Arg.max_depth, ArgTree.max_depth, maxOfDepths,
      List.map_cons, List.foldr_cons]
    rw [foldl_reduce_max]
    rfl

/-- C2: `Arg.summarize()` returns the bare name for a `Value` leaf; the bare
name for a `Choices`-typed `Arg` whose cached `max_depth` is at most two;
the `Choices` container's `summarize()` — the pipe-joined, angle-bracketed
inline expansion rendered through the choices summary formatter — when
`max_depth` exceeds two; and the `Group` container's `summarize()` for every
`Group`-typed `Arg` regardless of depth: a `Group` never collapses. -/
theorem arg_summarize_cases (v : Value) (d : Nat) (cs g : List Arg) :
    (Arg.mk v .value d).summarize = v.name ∧
    (d ≤ 2 → (Arg.mk v (.choices cs) d).summarize = v.name) ∧
    (2 < d → (Arg.mk v (.choices cs) d).summarize = Choices.summarize cs) ∧
    (Arg.mk v (.group g) d).summarize = ArgGroup.summarize g ∧
    Choices.summarize cs =
      Choices.summaryFormatter.fmt cs (fun a => some a.summarize) ∧
    ArgGroup.summarize g =
      ArgGroup.summaryFormatter.fmt g (fun a => some a.summarize) := by
  refine ⟨rfl, ?_, ?_, rfl, ?_, ?_⟩
  · intro h
    simp [Arg.summarize, ArgType.summarizeIn, h]
  · intro h
    simp [Arg.summarize, ArgType.summarizeIn, Choices.summarize, Nat.not_le.mpr h]
  · simp [Choices.summarize, Formatter.fmt, summarizeEach_eq_filterMap]
  · simp [ArgGroup.summarize, Formatter.fmt, summarizeEach_eq_filterMap]

/-- Closed instance of `arg_summarize_cases`: a depth-two `Choices` argument
collapses to its bare name and a deeper one expands. -/
theorem arg_summarize_cases_witness :
    (2 : Nat) ≤ 2 ∧
    (Arg.mk ⟨"tata", none⟩ (.choices [Arg.new "One" none]) 2).summarize = "tata" ∧
    2 < 3 ∧
    (Arg.mk ⟨"tata", none⟩ (.choices [Arg.new "One" none]) 3).summarize =
      Choices.summarize [Arg.new "One" none] :=
  ⟨by decide,
   (arg_summarize_cases ⟨"tata", none⟩ 2 [Arg.new "One" none] []).2.1 (by decide),
   by decide,
   (arg_summarize_cases ⟨"tata", none⟩ 3 [Arg.new "One" none] []).2.2.1 (by decide)⟩

/-- C3: `Arg.details()` renders a `Value` leaf as the single newline-ended
header line (the name padded to eight columns and followed by the
description when one is present, the bare name otherwise); a `Choices`-typed
`Arg` of depth at most two as that header line followed by the choices'
details with every line indented by two spaces (`start_with` prefixes each
line); a deeper `Choices` as exactly the choices' details, no header and no
indent; and a `Group`-typed `Arg` as exactly the group's details. -/
theorem arg_details_cases (v : Value) (d : Nat) (cs g : List Arg) :
    (Arg.mk v .value d).details = v.displayAlt ++ "\n" ∧
    (d ≤ 2 → (Arg.mk v (.choices cs) d).details =
      v.displayAlt ++ "\n" ++ start_with (Choices.details cs) "  ") ∧
    (2 < d → (Arg.mk v (.choices cs) d).details = Choices.details cs) ∧
    (Arg.mk v (.group g) d).details = ArgGroup.details g ∧
    (∀ name dsc, Value.displayAlt ⟨name, some dsc⟩ = pad8 name ++ dsc) ∧
    (∀ name, Value.displayAlt ⟨name, none⟩ = name) ∧
    (∀ s chars, start_with s chars =
      String.join ((strLines s).map (fun line => chars ++ line ++ "\n"))) := by
  refine ⟨rfl, ?_, ?_, rfl, fun _ _ => rfl, fun _ => rfl, ?_⟩
  · intro h
    simp [Arg.details, ArgType.detailsIn, Choices.details, h]
  · intro h
    simp [Arg.details, ArgType.detailsIn, Choices.details, Nat.not_le.mpr h]
  · intro s chars
    simp [start_with, String.join, List.foldl_map]

/-- Closed instance of `arg_details_cases`: the depth-two header-plus-indent
case and the deep no-header case, on a concrete choices child list. -/
theorem arg_details_cases_witness :
    (2 : Nat) ≤ 2 ∧
    (Arg.mk ⟨"tata", some "list"⟩ (.choices [Arg.new "One" none]) 2).details =
      Value.displayAlt ⟨"tata", some "list"⟩ ++ "\n" ++
        start_with (Choices.details [Arg.new "One" none]) "  " ∧
    2 < 3 ∧
    (Arg.mk ⟨"tata", some "list"⟩ (.choices [Arg.new "One" none]) 3).details =
      Choices.details [Arg.new "One" none] :=
  ⟨by decide,
   (arg_details_cases ⟨"tata", some "list"⟩ 2 [Arg.new "One" none] []).2.1 (by decide),
   by decide,
   (arg_details_cases ⟨"tata", some "list"⟩ 3 [Arg.new "One" none] []).2.2.1 (by decide)⟩

/-- C4: struct `try_parse` consumes fields strictly in declaration order: a
primitive field consumes exactly one token (`TooFewArguments` on an empty
stream, `BadType` when the token fails conversion, otherwise the tail is
handed to the remaining fields); a `#[try_parse]` field delegates to the
field type's `try_parse` on the current stream, propagates its error
verbatim — aborting with no partial result — and adopts its remainder as
the new current stream; and a successful parse returns as remainder exactly
an unconsumed suffix of the input tokens. -/
theorem struct_try_parse_fields_in_order :
    (∀ (conv : String → Option PVal) (fields : List FieldSpec),
      parseFields (.prim conv :: fields) [] = .error .TooFewArguments) ∧
    (∀ conv fields token ts, conv token = none →
      parseFields (.prim conv :: fields) (token :: ts) = .error .BadType) ∧
    (∀ conv fields token ts v, conv token = some v →
      parseFields (.prim conv :: fields) (token :: ts) =
        (match parseFields fields ts with
         | .ok (parsed, rest) => .ok (v :: parsed, rest)
         | .error e => .error e)) ∧
    (∀ spec fields toks e, tryParse spec toks = .error e →
      parseFields (.nested spec :: fields) toks = .error e) ∧
    (∀ spec fields toks v rest, tryParse spec toks = .ok (v, rest) →
      parseFields (.nested spec :: fields) toks =
        (match parseFields fields rest with
         | .ok (parsed, rest2) => .ok (v :: parsed, rest2)
         | .error e => .error e)) ∧
    (∀ spec toks v rest, tryParse spec toks = .ok (v, rest) →
      ∃ consumed, toks = consumed ++ rest) := by
  refine ⟨fun _ _ => rfl, ?_, ?_, ?_, ?_, ?_⟩
  · intro conv fields token ts hc
    simp [parseFields, hc]
  · intro conv fields token ts v hc
    simp [parseFields, hc]
  · intro spec fields toks e ht
    simp [parseFields, ht]
  · intro spec fields toks v rest ht
    simp [parseFields, ht]
  · exact tryParse_rest_suffix

/-- Closed instance of `struct_try_parse_fields_in_order`: running the
`Parent` fixture of `src/tests/try_parse.rs` on
`["42", "Thank", "tuple", "32", "32", "Hello, world", "end"]` succeeds with
remainder `["end"]`, and that remainder is a suffix of the input. -/
theorem struct_try_parse_fields_in_order_witness :
    tryParse ParentSpec ["42", "Thank", "tuple", "32", "32", "Hello, world", "end"] =
      .ok (.struct [.struct [.nat 42, .str "Thank"],
                    .variant "Tuple" [.nat 32, .struct [.nat 32, .str "Hello, world"]]],
           ["end"]) ∧
    ∃ consumed,
      ["42", "Thank", "tuple", "32", "32", "Hello, world", "end"] = consumed ++ ["end"] :=
  ⟨rfl,
   struct_try_parse_fields_in_order.2.2.2.2.2 ParentSpec
     ["42", "Thank", "tuple", "32", "32", "Hello, world", "end"]
     (.struct [.struct [.nat 42, .str "Thank"],
               .variant "Tuple" [.nat 32, .struct [.nat 32, .str "Hello, world"]]])
     ["end"] rfl⟩

/-- C5: union `try_parse` consumes exactly one discriminant token
(`TooFewArguments` on an empty stream) and hands it to the variant arms in
declaration order; an arm whose lowercased name equals the lowercased token
parses its fields by the struct rule on the remaining stream, a
non-matching arm falls through, and exhausting the arms yields
`VariantNotFound`. Concretely, `["one", "32"]` against the `{One, Two,
Three}`-then-integer shape parses to variant `One` and integer `32`, and
the discriminant `"unexistant"` yields `VariantNotFound`. -/
theorem union_try_parse_discriminant :
    (∀ variants, tryParse (.union variants) [] = .error .TooFewArguments) ∧
    (∀ variants kw ts,
      tryParse (.union variants) (kw :: ts) = parseVariants variants kw ts) ∧
    (∀ kw ts, parseVariants [] kw ts = .error .VariantNotFound) ∧
    (∀ name fields variants kw ts, lowerString name = lowerString kw →
      parseVariants ((name, fields) :: variants) kw ts =
        (match parseFields fields ts with
         | .ok (parsed, rest) => .ok (.variant name parsed, rest)
         | .error e => .error e)) ∧
    (∀ name fields variants kw ts, lowerString name ≠ lowerString kw →
      parseVariants ((name, fields) :: variants) kw ts =
        parseVariants variants kw ts) ∧
    tryParse NumberThenIntSpec ["one", "32"] =
      .ok (.struct [.variant "One" [], .nat 32], []) ∧
    tryParse NumberSpec ["unexistant"] = .error .VariantNotFound := by
  refine ⟨fun _ => rfl, fun _ _ _ => rfl, fun _ _ => rfl, ?_, ?_, rfl, rfl⟩
  · intro name fields variants kw ts hl
    simp [parseVariants, hl]
  · intro name fields variants kw ts hl
    simp [parseVariants, hl]

/-- Closed instance of `union_try_parse_discriminant`: the arm `One` matches
the discriminant `"one"` case-insensitively and parses its (empty) field
list. -/
theorem union_try_parse_discriminant_witness :
    lowerString "One" = lowerString "one" ∧
    parseVariants [("One", [])] "one" [] = .ok (.variant "One" [], []) :=
  ⟨rfl,
   (union_try_parse_discriminant.2.2.2.1 "One" [] [] "one" [] rfl).trans rfl⟩

/-- C6: the top-level `parse` returns `TooManyArguments` exactly when
`try_parse` succeeds with a remainder that still yields a token; it returns
`Ok` of the continuation applied to the parsed value exactly when
`try_parse` succeeds with an exhausted remainder; it returns a `try_parse`
error verbatim; and in every non-`Ok` case the result does not depend on
the continuation, which is therefore never invoked. -/
theorem parse_total_consumption (spec : TypeSpec) (toks : List String)
    {R : Type} (cb : PVal → R) :
    (parse spec toks cb = .error .TooManyArguments ↔
      ∃ v t ts, tryParse spec toks = .ok (v, t :: ts)) ∧
    (∀ r : R, parse spec toks cb = .ok r ↔
      ∃ v, tryParse spec toks = .ok (v, []) ∧ r = cb v) ∧
    (∀ e, tryParse spec toks = .error e → parse spec toks cb = .error e) ∧
    (∀ cb2 : PVal → R, (¬ ∃ v, tryParse spec toks = .ok (v, [])) →
      parse spec toks cb = parse spec toks cb2) := by
  cases h : tryParse spec toks with
  | ok p =>
    obtain ⟨v, rest⟩ := p
    cases rest with
    | nil =>
      have hp : ∀ cb2 : PVal → R, parse spec toks cb2 = .ok (cb2 v) := by
        intro cb2
        simp [parse, h]
      refine ⟨?_, ?_, ?_, ?_⟩
      · rw [hp cb]
        constructor
        · intro he
          exact Except.noConfusion he
        · rintro ⟨v2, t, ts, hv⟩
          simp at hv
      · intro r
        rw [hp cb]
        constructor
        · intro hr
          simp only [Except.ok.injEq] at hr
          exact ⟨v, rfl, hr.symm⟩
        · rintro ⟨v2, hv2, hr⟩
          obtain rfl : v = v2 := by simpa using hv2
          rw [hr]
      · intro e he
        exact Except.noConfusion he
      · intro cb2 hno
        exact absurd ⟨v, rfl⟩ hno
    | cons t ts =>
      have hp : ∀ cb2 : PVal → R, parse spec toks cb2 = .error .TooManyArguments := by
        intro cb2
        simp [parse, h]
      refine ⟨?_, ?_, ?_, ?_⟩
      · rw [hp cb]
        exact ⟨fun _ => ⟨v, t, ts, rfl⟩, fun _ => rfl⟩
      · intro r
        rw [hp cb]
        constructor
        · intro hr
          exact Except.noConfusion hr
        · rintro ⟨v2, hv2, -⟩
          simp at hv2
      · intro e he
        exact Except.noConfusion he
      · intro cb2 _
        rw [hp cb, hp cb2]
  | error e =>
    have hp : ∀ cb2 : PVal → R, parse spec toks cb2 = .error e := by
      intro cb2
      simp [parse, h]
    refine ⟨?_, ?_, ?_, ?_⟩
    · rw [hp cb]
      constructor
      · intro he
        simp only [Except.error.injEq] at he
        exact absurd he (tryParse_no_tooMany spec toks e h)
      · rintro ⟨v2, t, ts, hv⟩
        exact Except.noConfusion hv
    · intro r
      rw [hp cb]
      constructor
      · intro hr
        exact Except.noConfusion hr
      · rintro ⟨v2, hv2, -⟩
        exact Except.noConfusion hv2
    · intro e2 he2
      simp only [Except.error.injEq] at he2
      rw [hp cb, he2]
    · intro cb2 _
      rw [hp cb, hp cb2]

/-- Closed instance of `parse_total_consumption`: a `try_parse` failure
(`TooFewArguments` on a one-token stream for the two-field `Leaf` struct)
is propagated verbatim by `parse`. -/
theorem parse_total_consumption_witness :
    tryParse LeafSpec ["32"] = .error .TooFewArguments ∧
    parse LeafSpec ["32"] (fun v => v) = .error .TooFewArguments :=
  ⟨rfl,
   (parse_total_consumption LeafSpec ["32"] (fun v => v)).2.2.1
     .TooFewArguments rfl⟩

/-- C7: `Command.summarize()` equals the command's name, followed by a space
and `arguments.summarize()` exactly when the argument list is non-empty,
followed by `" [COMMAND] .."` exactly when the subcommands option is present;
in particular a present-but-empty subcommand list still gets the suffix. -/
theorem command_summarize_shape (c : Command) (v : Value) (args : List Arg) :
    Command.summarize c =
      c.value.name ++
        (if c.arguments.isEmpty then "" else " " ++ ArgGroup.summarize c.arguments) ++
        (if c.subcommands.isSome then " [COMMAND] .." else "") ∧
    Command.summarize ⟨v, some [], args⟩ =
      v.name ++ (if args.isEmpty then "" else " " ++ ArgGroup.summarize args) ++
        " [COMMAND] .." := by
  constructor
  · simp only [Command.summarize, Value.display]
    split <;> split <;> simp_all [String.append_assoc]
  · simp only [Command.summarize, Value.display, Option.isSome_some, if_true]
    split <;> simp_all [String.append_assoc]

/-- C8: `Formatter.fmt` on an empty item sequence returns exactly the
configured `very_start` and `very_end` (empty when unset), and items whose
renderer returns `none` are dropped without contributing a separator, item
prefix, or item suffix: `fmt` over a sequence equals `fmt` over the sequence
with the nothing-rendering items removed. -/
theorem formatter_fmt_empty_and_filter (f : Formatter) {α : Type}
    (l : List α) (g : α → Option String) :
    f.fmt ([] : List α) g = f.very_start.getD "" ++ f.very_end.getD "" ∧
    f.fmt l g = f.fmt (l.filter fun x => (g x).isSome) g := by
  constructor
  · simp [Formatter.fmt, Formatter.fmtList]
  · simp [Formatter.fmt, filterMap_filter_isSome]

/-- C9: the renderers are total functions on every argument tree — they are
defined by terminating recursion on the tree, so every tree renders to a
string — and on the malformed composites with zero alternatives they produce
the degenerate outputs computed here: an empty `Choices` collapses to the
bare name in the summary and to the bare header line in the details, an
empty `Group` renders as the empty string, and the bare containers render
as `"<>"` or `""`. -/
theorem renderers_total_on_empty_composites (name : String)
    (description : Option String) :
    (Arg.with_type name description (.choices [])).summarize = name ∧
    (Arg.with_type name description (.choices [])).details =
      Value.displayAlt ⟨name, description⟩ ++ "\n" ∧
    (Arg.with_type name description (.group [])).summarize = "" ∧
    (Arg.with_type name description (.group [])).details = "" ∧
    Choices.summarize [] = "<>" ∧
    ArgGroup.summarize [] = "" ∧
    Choices.details [] = "" ∧
    ArgGroup.details [] = "" := by
  refine ⟨?_, ?_, ?_, ?_, rfl, rfl, rfl, rfl⟩
  · simp [Arg.with_type, Arg.summarize, ArgType.summarizeIn, ArgTree.max_depth]
  · simp [Arg.with_type, Arg.details, ArgType.detailsIn, ArgTree.max_depth,
      detailsEach, Choices.detailsFormatter, Formatter.fmtList, start_with,
      strLines, splitNl]
  · simp [Arg.with_type, Arg.summarize, ArgType.summarizeIn, ArgTree.max_depth,
      summarizeEach, ArgGroup.summaryFormatter, Formatter.fmtList]
  · simp [Arg.with_type, Arg.details, ArgType.detailsIn, ArgTree.max_depth,
      detailsEach, ArgGroup.detailsFormatter, Formatter.fmtList]

/-- C10: a command built by `Command::new` starts with an empty argument
list and no subcommands, and `Command::set_arguments` appends (it does not
replace): one call appends its list, two calls leave the concatenation of
both lists in call order. -/
theorem command_new_and_set_arguments (name : String)
    (description : Option String) (c : Command) (l1 l2 : List Arg) :
    (Command.new name description).arguments = [] ∧
    (Command.new name description).subcommands = none ∧
    (c.set_arguments l1).arguments = c.arguments ++ l1 ∧
    ((c.set_arguments l1).set_arguments l2).arguments = c.arguments ++ l1 ++ l2 := by
  refine ⟨rfl, rfl, rfl, ?_⟩
  simp [Command.set_arguments]

end Clip
